import Mathlib

/-!
Verification of `tools/amd_build/build_amd.py`.

The script parses one boolean flag, optionally applies patch files and
performs two literal text substitutions over the `torch` subtree, and then
invokes the external `hipify_python.hipify` routine once.

The development embeds the script shallowly:
  * Python's `str.replace` (replace all non-overlapping occurrences, left to
    right) is `replaceAll` on `List Char`, lifted to `String` as `pyReplace`;
  * the filesystem is an association list of `(path, contents)` pairs;
  * the patch loop is recorded as a list of launched external processes whose
    exit codes are an oracle the script never consults;
  * the final hipify invocation is recorded as a list of call records.
-/

namespace BuildAmd

/-- One step bound of `replaceAllFuel`: structural recursion on a fuel
counter so that the function reduces inside the kernel.  On each cons cell,
if the (nonempty) pattern `p` is a prefix of the remaining input the whole
match is consumed and the replacement `r` is emitted, otherwise one
character is copied.  This is the semantics of Python's `str.replace`
restricted to a nonempty pattern. -/
def replaceAllFuel {α : Type} [DecidableEq α] (p r : List α) : Nat → List α → List α
  | _, [] => []
  | 0, s => s
  | fuel + 1, c :: cs =>
    if p ≠ [] ∧ p <+: (c :: cs) then
      r ++ replaceAllFuel p r fuel ((c :: cs).drop p.length)
    else
      c :: replaceAllFuel p r fuel cs

/-- Replace all non-overlapping occurrences of `p` by `r` in `s`, scanning
left to right: Python's `s.replace(p, r)` for a nonempty pattern `p`. -/
def replaceAll {α : Type} [DecidableEq α] (p r s : List α) : List α :=
  replaceAllFuel p r s.length s

theorem replaceAllFuel_congr {α : Type} [DecidableEq α] (p r : List α) :
    ∀ f₁ f₂ s, s.length ≤ f₁ → s.length ≤ f₂ →
      replaceAllFuel p r f₁ s = replaceAllFuel p r f₂ s := by
  intro f₁
  induction f₁ with
  | zero =>
    intro f₂ s h₁ _
    have hs : s = [] := List.length_eq_zero.mp (Nat.le_zero.mp h₁)
    subst hs
    cases f₂ <;> rfl
  | succ f₁ ih =>
    intro f₂ s h₁ h₂
    match s with
    | [] => cases f₂ <;> rfl
    | c :: cs =>
      match f₂ with
      | 0 => exact absurd h₂ (by simp)
      | f₂ + 1 =>
        simp only [replaceAllFuel]
        by_cases hg : p ≠ [] ∧ p <+: (c :: cs)
        · rw [if_pos hg, if_pos hg]
          have hp : 0 < p.length := List.length_pos.mpr hg.1
          have hlen : ((c :: cs).drop p.length).length ≤ f₁ := by
            simp only [List.length_drop, List.length_cons]
            simp only [List.length_cons] at h₁
            omega
          have hlen' : ((c :: cs).drop p.length).length ≤ f₂ := by
            simp only [List.length_drop, List.length_cons]
            simp only [List.length_cons] at h₂
            omega
          rw [ih f₂ _ hlen hlen']
        · rw [if_neg hg, if_neg hg]
          have hlen : cs.length ≤ f₁ := by
            simp only [List.length_cons] at h₁; omega
          have hlen' : cs.length ≤ f₂ := by
            simp only [List.length_cons] at h₂; omega
          rw [ih f₂ _ hlen hlen']

theorem replaceAll_nil {α : Type} [DecidableEq α] (p r : List α) :
    replaceAll p r [] = [] := rfl

theorem replaceAll_cons_pos {α : Type} [DecidableEq α] (p r : List α) (c : α)
    (cs : List α) (hp : p ≠ []) (hpre : p <+: (c :: cs)) :
    replaceAll p r (c :: cs) = r ++ replaceAll p r ((c :: cs).drop p.length) := by
  have hplen : 0 < p.length := List.length_pos.mpr hp
  show replaceAllFuel p r (c :: cs).length (c :: cs) = _
  simp only [List.length_cons, replaceAllFuel]
  rw [if_pos ⟨hp, hpre⟩]
  congr 1
  exact replaceAllFuel_congr p r cs.length _ _
    (by simp only [List.length_drop, List.length_cons]; omega)
    (le_refl _)

theorem replaceAll_cons_neg {α : Type} [DecidableEq α] (p r : List α) (c : α)
    (cs : List α) (hg : ¬ (p ≠ [] ∧ p <+: (c :: cs))) :
    replaceAll p r (c :: cs) = c :: replaceAll p r cs := by
  show replaceAllFuel p r (c :: cs).length (c :: cs) = _
  simp only [List.length_cons, replaceAllFuel]
  rw [if_neg hg]
  rfl

theorem prefix_append_cases {α : Type} (q l₁ l₂ : List α) (h : q <+: l₁ ++ l₂) :
    q <+: l₁ ∨ (l₁ <+: q ∧ q.drop l₁.length <+: l₂) := by
  rcases le_or_lt q.length l₁.length with hle | hlt
  · exact Or.inl (List.prefix_of_prefix_length_le h (List.prefix_append l₁ l₂) hle)
  · have hl₁q : l₁ <+: q :=
      List.prefix_of_prefix_length_le (List.prefix_append l₁ l₂) h (Nat.le_of_lt hlt)
    refine Or.inr ⟨hl₁q, ?_⟩
    obtain ⟨m, rfl⟩ := hl₁q
    obtain ⟨t, ht⟩ := h
    rw [List.append_assoc] at ht
    have hm : m ++ t = l₂ := List.append_cancel_left ht
    rw [List.drop_left]
    exact ⟨t, hm⟩

theorem infix_append_cases {α : Type} (q : List α) :
    ∀ l₁ l₂ : List α, q <:+: l₁ ++ l₂ →
      q <:+: l₁ ∨ q <:+: l₂ ∨
        ∃ a b, q = a ++ b ∧ a ≠ [] ∧ b ≠ [] ∧ a <:+ l₁ ∧ b <+: l₂ := by
  intro l₁
  induction l₁ with
  | nil =>
    intro l₂ h
    exact Or.inr (Or.inl (by simpa using h))
  | cons x l₁ ih =>
    intro l₂ h
    rw [List.cons_append] at h
    rcases List.infix_cons_iff.mp h with hpre | htail
    · have hpre' : q <+: (x :: l₁) ++ l₂ := by simpa using hpre
      rcases prefix_append_cases q (x :: l₁) l₂ hpre' with h1 | ⟨h2, h3⟩
      · exact Or.inl h1.isInfix
      · obtain ⟨m, rfl⟩ := h2
        rw [List.drop_left] at h3
        match m with
        | [] =>
          refine Or.inl ?_
          rw [List.append_nil]
        | d :: m =>
          exact Or.inr (Or.inr ⟨x :: l₁, d :: m, rfl, List.cons_ne_nil x l₁,
            List.cons_ne_nil d m, List.suffix_refl _, h3⟩)
    · rcases ih l₂ htail with h1 | h2 | ⟨a, b, hab, ha, hb, hsuf, hpre2⟩
      · exact Or.inl (List.infix_cons h1)
      · exact Or.inr (Or.inl h2)
      · exact Or.inr (Or.inr ⟨a, b, hab, ha, hb, hsuf.trans (List.suffix_cons x l₁), hpre2⟩)

/-- If the pattern does not occur in `s`, `replaceAll` leaves `s` unchanged. -/
theorem replaceAll_of_not_infix {α : Type} [DecidableEq α] (p r : List α) :
    ∀ s, ¬ p <:+: s → replaceAll p r s = s := by
  intro s
  induction s with
  | nil => intro _; rfl
  | cons c cs ih =>
    intro h
    have hg : ¬ (p ≠ [] ∧ p <+: (c :: cs)) := fun hc => h hc.2.isInfix
    rw [replaceAll_cons_neg p r c cs hg, ih (fun h2 => h (List.infix_cons h2))]

/-- Every nonempty prefix of the output of `replaceAll` is either a prefix of
the input or splits as an untouched part followed by a nonempty piece aligned
with the beginning of an emitted copy of the replacement `r`. -/
theorem replaceAll_prefix_cases {α : Type} [DecidableEq α] (p r : List α) :
    ∀ s b : List α, b ≠ [] → b <+: replaceAll p r s →
      b <+: s ∨ ∃ t d, b = t ++ d ∧ d ≠ [] ∧ (d <+: r ∨ r <+: d) := by
  intro s
  induction s with
  | nil =>
    intro b hb h
    rw [replaceAll_nil] at h
    exact absurd (List.prefix_nil.mp h) hb
  | cons c cs ih =>
    intro b hb h
    by_cases hg : p ≠ [] ∧ p <+: (c :: cs)
    · rw [replaceAll_cons_pos p r c cs hg.1 hg.2] at h
      rcases prefix_append_cases b r _ h with h1 | ⟨h2, _⟩
      · exact Or.inr ⟨[], b, rfl, hb, Or.inl h1⟩
      · exact Or.inr ⟨[], b, rfl, hb, Or.inr h2⟩
    · rw [replaceAll_cons_neg p r c cs hg] at h
      obtain ⟨b₀, b', rfl⟩ := List.exists_cons_of_ne_nil hb
      obtain ⟨hb₀, hb'⟩ := List.cons_prefix_cons.mp h
      subst hb₀
      match b' with
      | [] =>
        exact Or.inl (List.cons_prefix_cons.mpr ⟨rfl, List.nil_prefix⟩)
      | e :: b' =>
        rcases ih (e :: b') (List.cons_ne_nil e b') hb' with h1 | ⟨t, d, htd, hd, hdr⟩
        · exact Or.inl (List.cons_prefix_cons.mpr ⟨rfl, h1⟩)
        · exact Or.inr ⟨b₀ :: t, d, by rw [htd, List.cons_append], hd, hdr⟩

/-- Core lemma on `replaceAll p r`: under overlap side conditions on the
pattern `p`, the replacement `r` and a monitored pattern `q` (all finitely
checkable), the output contains no occurrence of `q`, provided either `q` is
the replaced pattern itself or `q` did not occur in the input. -/
theorem replaceAll_not_infix {α : Type} [DecidableEq α] (p r q : List α)
    (hA : ∀ i, i < r.length → r.length - i < q.length → ¬ (r.drop i <+: q))
    (hB : ¬ q <:+: r)
    (hC : ∀ j, j < q.length → 0 < j → ¬ (q.drop j <+: r) ∧ ¬ (r <+: q.drop j)) :
    ∀ s, (q = p ∨ ¬ q <:+: s) → ¬ q <:+: replaceAll p r s := by
  have hq : q ≠ [] := fun h => hB (h ▸ List.nil_infix)
  have main : ∀ n (s : List α), s.length ≤ n →
      (q = p ∨ ¬ q <:+: s) → ¬ q <:+: replaceAll p r s := by
    intro n
    induction n with
    | zero =>
      intro s hlen _
      have hs : s = [] := List.length_eq_zero.mp (Nat.le_zero.mp hlen)
      subst hs
      rw [replaceAll_nil]
      exact fun hcon => hq (List.infix_nil.mp hcon)
    | succ n ih =>
      intro s hlen hs
      match s with
      | [] =>
        rw [replaceAll_nil]
        exact fun hcon => hq (List.infix_nil.mp hcon)
      | c :: cs =>
        by_cases hg : p ≠ [] ∧ p <+: (c :: cs)
        · rw [replaceAll_cons_pos p r c cs hg.1 hg.2]
          intro hcon
          rcases infix_append_cases q r _ hcon with h1 | h2 | ⟨a, b, hab, ha, hbne, hsuf, _⟩
          · exact hB h1
          · have hplen : 0 < p.length := List.length_pos.mpr hg.1
            have hdlen : ((c :: cs).drop p.length).length ≤ n := by
              simp only [List.length_drop, List.length_cons]
              simp only [List.length_cons] at hlen
              omega
            have hs' : q = p ∨ ¬ q <:+: (c :: cs).drop p.length := by
              rcases hs with h | h
              · exact Or.inl h
              · exact Or.inr (fun hin =>
                  h (hin.trans (List.drop_suffix p.length (c :: cs)).isInfix))
            exact ih _ hdlen hs' h2
          · obtain ⟨t, ht⟩ := hsuf
            have hdropa : r.drop t.length = a := by rw [← ht, List.drop_left]
            have hrlen : r.length = t.length + a.length := by
              rw [← ht, List.length_append]
            have halen : 0 < a.length := List.length_pos.mpr ha
            have hblen : 0 < b.length := List.length_pos.mpr hbne
            have hqlen : q.length = a.length + b.length := by
              rw [hab, List.length_append]
            refine hA t.length (by omega) (by omega) ?_
            rw [hdropa, hab]
            exact List.prefix_append a b
        · rw [replaceAll_cons_neg p r c cs hg]
          intro hcon
          have hnotpre : ¬ q <+: (c :: cs) := by
            rcases hs with h | h
            · subst h
              exact fun hc => hg ⟨hq, hc⟩
            · exact fun hc => h hc.isInfix
          have hcslen : cs.length ≤ n := by
            simp only [List.length_cons] at hlen; omega
          rcases List.infix_cons_iff.mp hcon with hpre | htail
          · obtain ⟨q₀, q', rfl⟩ := List.exists_cons_of_ne_nil hq
            obtain ⟨hq₀, hq'⟩ := List.cons_prefix_cons.mp hpre
            subst hq₀
            match q', hq' with
            | [], _ =>
              exact hnotpre (List.cons_prefix_cons.mpr ⟨rfl, List.nil_prefix⟩)
            | e :: q', hq' =>
              rcases replaceAll_prefix_cases p r cs (e :: q')
                  (List.cons_ne_nil e q') hq' with h1 | ⟨t, d, htd, hd, hdr⟩
              · exact hnotpre (List.cons_prefix_cons.mpr ⟨rfl, h1⟩)
              · have hdrop : (q₀ :: (e :: q')).drop (t.length + 1) = d := by
                  have : q₀ :: (e :: q') = (q₀ :: t) ++ d := by
                    rw [htd, List.cons_append]
                  rw [this]
                  have hlt : (q₀ :: t).length = t.length + 1 := by
                    simp
                  rw [← hlt, List.drop_left]
                have hdlen : 0 < d.length := List.length_pos.mpr hd
                have hqlen : (q₀ :: (e :: q')).length = t.length + 1 + d.length := by
                  rw [htd]
                  simp only [List.length_cons, List.length_append]
                  omega
                have := hC (t.length + 1) (by omega) (by omega)
                rw [hdrop] at this
                rcases hdr with h | h
                · exact this.1 h
                · exact this.2 h
          · have hs' : q = p ∨ ¬ q <:+: cs := by
              rcases hs with h | h
              · exact Or.inl h
              · exact Or.inr (fun hin => h (List.infix_cons hin))
            exact ih _ hcslen hs' htail
  intro s hs
  exact main s.length s (le_refl _) hs

/-- Python's `s.replace(pat, repl)` on `String`, via the character list. -/
def pyReplace (s pat repl : String) : String :=
  String.mk (replaceAll pat.data repl.data s.data)

/-- The per-file transform of the substitution loop:
`contents.replace("USE_CUDA", "USE_ROCM").replace("CUDA_VERSION", "0")`. -/
def substituteContents (contents : String) : String :=
  pyReplace (pyReplace contents "USE_CUDA" "USE_ROCM") "CUDA_VERSION" "0"

theorem no_marker_after_first_pass (l : List Char) :
    ¬ "USE_CUDA".data <:+: replaceAll "USE_CUDA".data "USE_ROCM".data l :=
  replaceAll_not_infix _ _ _ (by decide) (by decide) (by decide) l (Or.inl rfl)

theorem no_version_after_second_pass (l : List Char) :
    ¬ "CUDA_VERSION".data <:+: replaceAll "CUDA_VERSION".data "0".data l :=
  replaceAll_not_infix _ _ _ (by decide) (by decide) (by decide) l (Or.inl rfl)

theorem no_marker_preserved_by_second_pass (l : List Char)
    (h : ¬ "USE_CUDA".data <:+: l) :
    ¬ "USE_CUDA".data <:+: replaceAll "CUDA_VERSION".data "0".data l :=
  replaceAll_not_infix _ _ _ (by decide) (by decide) (by decide) l (Or.inr h)

/-- After the transform, neither marker string occurs in the contents. -/
theorem substituteContents_no_markers (contents : String) :
    ¬ "USE_CUDA".data <:+: (substituteContents contents).data ∧
      ¬ "CUDA_VERSION".data <:+: (substituteContents contents).data := by
  constructor
  · exact no_marker_preserved_by_second_pass _ (no_marker_after_first_pass contents.data)
  · exact no_version_after_second_pass _

theorem substituteContents_idem (contents : String) :
    substituteContents (substituteContents contents) = substituteContents contents := by
  have h1 := no_marker_preserved_by_second_pass
    (replaceAll "USE_CUDA".data "USE_ROCM".data contents.data)
    (no_marker_after_first_pass contents.data)
  have h2 := no_version_after_second_pass
    (replaceAll "USE_CUDA".data "USE_ROCM".data contents.data)
  show String.mk (replaceAll "CUDA_VERSION".data "0".data
      (replaceAll "USE_CUDA".data "USE_ROCM".data
        (replaceAll "CUDA_VERSION".data "0".data
          (replaceAll "USE_CUDA".data "USE_ROCM".data contents.data)))) = _
  rw [ replaceAll_of_not_infix _ _ _ h1, replaceAll_of_not_infix _ _ _ h2]
  rfl

/-- Python's `str.endswith`, via character lists. -/
def strEndsWith (s suffix : String) : Bool :=
  suffix.data.isSuffixOf s.data

/-- Python's `str.startswith`, via character lists. -/
def strStartsWith (s pre : String) : Bool :=
  pre.data.isPrefixOf s.data

/-- `os.path.join` for the relative components used by the script. -/
def pathJoin (a b : String) : String := a ++ "/" ++ b

/-- The basename of a path: the part after the last `/` (what `os.walk`
yields as `filename`). -/
def fileName (path : String) : String :=
  String.mk (path.data.reverse.takeWhile (fun c => c ≠ '/')).reverse

/-- Static `includes` glob list passed to hipify. -/
def includes : List String :=
  ["caffe2/operators/*",
   "caffe2/sgd/*",
   "caffe2/image/*",
   "caffe2/transforms/*",
   "caffe2/video/*",
   "caffe2/distributed/*",
   "caffe2/queue/*",
   "binaries/*",
   "caffe2/**/*_test*",
   "caffe2/core/*",
   "caffe2/db/*",
   "caffe2/utils/*",
   "c10/cuda/*",
   "aten/*",
   "torch/*"]

/-- Static `ignores` glob list passed to hipify. -/
def ignores : List String :=
  ["caffe2/operators/depthwise_3x3_conv_op_cudnn.cu",
   "caffe2/operators/pool_op_cudnn.cu",
   "**/hip/**",
   "aten/src/ATen/core/*"]

/-- The `ignore_files` list: path suffixes excluded from the substitution. -/
def ignore_files : List String :=
  ["csrc/autograd/profiler.h", "csrc/autograd/profiler.cpp",
   "csrc/cuda/cuda_check.h"]

/-- The result of `argparse`: the single declared option. -/
structure Args where
  out_of_place_only : Bool
deriving DecidableEq

/-- The argument parser declared by the script: one optional flag
`--out-of-place-only` stored with `action=store_true` (default `False`);
any token that is not a declared option makes `argparse` reject the
command line (modelled as `none`). -/
def parse_args : List String → Option Args
  | [] => some ⟨false⟩
  | arg :: rest =>
    if arg = "--out-of-place-only" then
      (parse_args rest).map fun _ => ⟨true⟩
    else
      none

/-- A file is visited by `os.walk(os.path.join(proj_dir, "torch"))` exactly
when its path lies strictly below `proj_dir/torch`. -/
def underTorch (projDir path : String) : Bool :=
  strStartsWith path (pathJoin projDir "torch" ++ "/")

/-- The disabled-files test:
`reduce(lambda result, exclude: source.endswith(exclude) or result, ignore_files, False)`. -/
def isIgnoredFile (path : String) : Bool :=
  ignore_files.foldl (fun result exclude => strEndsWith path exclude || result) false

/-- A file is rewritten by the substitution loop iff it is below the `torch`
subtree, its basename ends in `.cpp` or `.h`, and it is not a disabled
file. -/
def isSubstTarget (projDir path : String) : Bool :=
  underTorch projDir path &&
    (strEndsWith (fileName path) ".cpp" || strEndsWith (fileName path) ".h") &&
    !(isIgnoredFile path)

/-- The substitution loop over the filesystem, as a map over the
`(path, contents)` association list. -/
def substPass (projDir : String) (fs : List (String × String)) :
    List (String × String) :=
  fs.map fun pc =>
    if isSubstTarget projDir pc.1 then (pc.1, substituteContents pc.2) else pc

/-- An external process spawned with `subprocess.Popen(args, cwd=...)`. -/
structure Process where
  args : List String
  cwd : String
deriving DecidableEq

/-- The patch loop: one `git apply` process per file of the patches
directory, run from the project directory. -/
def patchProcesses (amdBuildDir projDir : String) (patchFiles : List String) :
    List Process :=
  patchFiles.map fun filename =>
    { args := ["git", "apply", pathJoin (pathJoin amdBuildDir "patches") filename],
      cwd := projDir }

/-- The argument record of one `hipify_python.hipify(...)` invocation. -/
structure HipifyCall where
  project_directory : String
  output_directory : String
  includes : List String
  ignores : List String
  out_of_place_only : Bool
  json_settings : String
  add_static_casts_option : Bool
deriving DecidableEq

/-- Everything observable the script does: the processes it spawned, the
final contents of the filesystem just before the hipify call, and the
hipify invocations it performs. -/
structure ScriptResult where
  launched : List Process
  files : List (String × String)
  hipifyCalls : List HipifyCall
deriving DecidableEq

/-- The whole script, after argument parsing.  `patchFiles` is the listing
of the patches directory and `fs` the `(path, contents)` view of the
filesystem; `exitCode` is an oracle giving the exit status of each spawned
process, which the script receives but never consults (it drops the
`Popen` handle on the floor). -/
def build_amd (args : Args) (amdBuildDir projDir : String)
    (patchFiles : List String) (fs : List (String × String))
    (exitCode : Process → Int) : ScriptResult :=
  let json_file : String :=
    if args.out_of_place_only then "" else pathJoin amdBuildDir "disabled_features.json"
  let launched : List Process :=
    if args.out_of_place_only then [] else patchProcesses amdBuildDir projDir patchFiles
  let _statuses : List Int := launched.map exitCode
  let files : List (String × String) :=
    if args.out_of_place_only then fs else substPass projDir fs
  { launched := launched,
    files := files,
    hipifyCalls := [{ project_directory := projDir,
                      output_directory := projDir,
                      includes := includes,
                      ignores := ignores,
                      out_of_place_only := args.out_of_place_only,
                      json_settings := json_file,
                      add_static_casts_option := true }] }

/-- Claim C1: when the flag is not set, every `.cpp`/`.h` file below the
`torch` subtree whose path does not end in one of the three excluded
suffixes ends up with exactly the contents obtained by replacing
`USE_CUDA` by `USE_ROCM` and `CUDA_VERSION` by `0` in its original
contents; in particular no occurrence of either marker remains. -/
theorem C1_subst_pass_rewrites (amdBuildDir projDir : String)
    (patchFiles : List String) (fs : List (String × String))
    (exitCode : Process → Int) (path contents : String)
    (hmem : (path, contents) ∈ fs)
    (htarget : isSubstTarget projDir path = true) :
    (path, substituteContents contents) ∈
        (build_amd ⟨false⟩ amdBuildDir projDir patchFiles fs exitCode).files ∧
      substituteContents contents =
        pyReplace (pyReplace contents "USE_CUDA" "USE_ROCM") "CUDA_VERSION" "0" ∧
      ¬ "USE_CUDA".data <:+: (substituteContents contents).data ∧
      ¬ "CUDA_VERSION".data <:+: (substituteContents contents).data := by
  refine ⟨?_, rfl, (substituteContents_no_markers contents).1,
    (substituteContents_no_markers contents).2⟩
  show (path, substituteContents contents) ∈ substPass projDir fs
  have hmap := List.mem_map_of_mem (fun pc : String × String =>
    if isSubstTarget projDir pc.1 then (pc.1, substituteContents pc.2) else pc) hmem
  simpa [substPass, htarget] using hmap

theorem C1_subst_pass_rewrites_witness :
    ("p/torch/a.cpp", substituteContents "ifdef USE_CUDA") ∈
        (build_amd ⟨false⟩ "amd" "p" [] [("p/torch/a.cpp", "ifdef USE_CUDA")]
          (fun _ => 0)).files ∧
      substituteContents "ifdef USE_CUDA" =
        pyReplace (pyReplace "ifdef USE_CUDA" "USE_CUDA" "USE_ROCM")
          "CUDA_VERSION" "0" ∧
      ¬ "USE_CUDA".data <:+: (substituteContents "ifdef USE_CUDA").data ∧
      ¬ "CUDA_VERSION".data <:+: (substituteContents "ifdef USE_CUDA").data :=
  C1_subst_pass_rewrites "amd" "p" [] [("p/torch/a.cpp", "ifdef USE_CUDA")]
    (fun _ => 0) "p/torch/a.cpp" "ifdef USE_CUDA" (by decide) (by decide)

/-- Claim C2: with the flag set, no external process is launched and every
file's contents are unchanged before the hipify call; the hipify pass
still runs (exactly one invocation). -/
theorem C2_out_of_place_only_frame (amdBuildDir projDir : String)
    (patchFiles : List String) (fs : List (String × String))
    (exitCode : Process → Int) :
    (build_amd ⟨true⟩ amdBuildDir projDir patchFiles fs exitCode).launched = [] ∧
      (build_amd ⟨true⟩ amdBuildDir projDir patchFiles fs exitCode).files = fs ∧
      (build_amd ⟨true⟩ amdBuildDir projDir patchFiles fs exitCode).hipifyCalls.length = 1 :=
  ⟨rfl, rfl, rfl⟩

/-- Claim C3: a file whose path is not below the `torch` subtree keeps its
contents through the substitution pass, for either flag value. -/
theorem C3_outside_torch_unmodified (args : Args) (amdBuildDir projDir : String)
    (patchFiles : List String) (fs : List (String × String))
    (exitCode : Process → Int) (path contents : String)
    (hmem : (path, contents) ∈ fs)
    (hout : underTorch projDir path = false) :
    (path, contents) ∈
      (build_amd args amdBuildDir projDir patchFiles fs exitCode).files := by
  obtain ⟨oop⟩ := args
  cases oop
  · show (path, contents) ∈ substPass projDir fs
    have hns : isSubstTarget projDir path = false := by
      simp [isSubstTarget, hout]
    have hmap := List.mem_map_of_mem (fun pc : String × String =>
      if isSubstTarget projDir pc.1 then (pc.1, substituteContents pc.2) else pc) hmem
    simpa [substPass, hns] using hmap
  · exact hmem

theorem C3_outside_torch_unmodified_witness :
    ("p/other/a.cpp", "USE_CUDA") ∈
      (build_amd ⟨false⟩ "amd" "p" [] [("p/other/a.cpp", "USE_CUDA")]
        (fun _ => 0)).files :=
  C3_outside_torch_unmodified ⟨false⟩ "amd" "p" [] [("p/other/a.cpp", "USE_CUDA")]
    (fun _ => 0) "p/other/a.cpp" "USE_CUDA" (by decide) (by decide)

/-- Claim C4: the hipify invocation receives the same static `includes` and
`ignores` lists for every flag value and every other input. -/
theorem C4_static_lists (args : Args) (amdBuildDir projDir : String)
    (patchFiles : List String) (fs : List (String × String))
    (exitCode : Process → Int) :
    (build_amd args amdBuildDir projDir patchFiles fs exitCode).hipifyCalls.map
        (fun c => (c.includes, c.ignores)) = [(includes, ignores)] :=
  rfl

/-- Claim C5: in non-out-of-place mode the patch loop launches exactly one
`git apply` process per patch file, and the script's result is the same
whatever exit statuses those processes produce (it never consults them). -/
theorem C5_patches_fire_and_forget (args : Args) (amdBuildDir projDir : String)
    (patchFiles : List String) (fs : List (String × String))
    (exitCode₁ exitCode₂ : Process → Int) :
    build_amd args amdBuildDir projDir patchFiles fs exitCode₁ =
        build_amd args amdBuildDir projDir patchFiles fs exitCode₂ ∧
      (build_amd ⟨false⟩ amdBuildDir projDir patchFiles fs exitCode₁).launched =
        patchFiles.map (fun filename =>
          { args := ["git", "apply", pathJoin (pathJoin amdBuildDir "patches") filename],
            cwd := projDir }) ∧
      (build_amd ⟨false⟩ amdBuildDir projDir patchFiles fs exitCode₁).launched.length =
        patchFiles.length := by
  refine ⟨rfl, rfl, ?_⟩
  show (patchProcesses amdBuildDir projDir patchFiles).length = patchFiles.length
  simp [patchProcesses]

/-- Claim C6: the settings-file argument of the hipify call is the constant
path `disabled_features.json` next to the script when the flag is unset,
and the empty string when the flag is set. -/
theorem C6_json_settings (amdBuildDir projDir : String)
    (patchFiles : List String) (fs : List (String × String))
    (exitCode : Process → Int) :
    (build_amd ⟨false⟩ amdBuildDir projDir patchFiles fs exitCode).hipifyCalls.map
        HipifyCall.json_settings = [pathJoin amdBuildDir "disabled_features.json"] ∧
      (build_amd ⟨true⟩ amdBuildDir projDir patchFiles fs exitCode).hipifyCalls.map
        HipifyCall.json_settings = [""] :=
  ⟨rfl, rfl⟩

/-- Claim C7: the command line accepts one optional boolean flag
`--out-of-place-only`, off by default; any other token is rejected. -/
theorem C7_cli (a : String) (ha : a ≠ "--out-of-place-only") :
    parse_args [] = some ⟨false⟩ ∧
      parse_args ["--out-of-place-only"] = some ⟨true⟩ ∧
      parse_args [a] = none := by
  refine ⟨rfl, rfl, ?_⟩
  simp [parse_args, ha]

theorem C7_cli_witness :
    parse_args [] = some ⟨false⟩ ∧
      parse_args ["--out-of-place-only"] = some ⟨true⟩ ∧
      parse_args ["--verbose"] = none :=
  C7_cli "--verbose" (by decide)

/-- Claim C8: the per-file transform (replace `USE_CUDA` by `USE_ROCM`,
then `CUDA_VERSION` by `0`) is idempotent, so re-running the substitution
pass leaves already-transformed contents unchanged. -/
theorem C8_substituteContents_idempotent (contents : String) :
    substituteContents (substituteContents contents) = substituteContents contents :=
  substituteContents_idem contents

/-- Claim C9: among `.cpp`/`.h` files below the `torch` subtree, the
exclusion list is matched by path suffix: such a file is skipped iff its
full path ends with one of the three listed suffixes. -/
theorem C9_exclusion_by_suffix (projDir path : String)
    (hunder : underTorch projDir path = true)
    (hext : (strEndsWith (fileName path) ".cpp" ||
      strEndsWith (fileName path) ".h") = true) :
    (isSubstTarget projDir path = false ↔
      (strEndsWith path "csrc/autograd/profiler.h" = true ∨
       strEndsWith path "csrc/autograd/profiler.cpp" = true ∨
       strEndsWith path "csrc/cuda/cuda_check.h" = true)) := by
  simp only [isSubstTarget, hunder, hext, isIgnoredFile, ignore_files,
    List.foldl, Bool.true_and, Bool.or_false, Bool.not_eq_false',
    Bool.or_eq_true]
  tauto

theorem C9_exclusion_by_suffix_witness :
    isSubstTarget "p" "p/torch/deep/nested/csrc/cuda/cuda_check.h" = false :=
  (C9_exclusion_by_suffix "p" "p/torch/deep/nested/csrc/cuda/cuda_check.h"
      (by decide) (by decide)).mpr (Or.inr (Or.inr (by decide)))

/-- Claim C10: for either flag value the hipify routine is invoked exactly
once, with the output directory equal to the project directory and the
static-casts option enabled. -/
theorem C10_hipify_once (args : Args) (amdBuildDir projDir : String)
    (patchFiles : List String) (fs : List (String × String))
    (exitCode : Process → Int) :
    (build_amd args amdBuildDir projDir patchFiles fs exitCode).hipifyCalls.length = 1 ∧
      (build_amd args amdBuildDir projDir patchFiles fs exitCode).hipifyCalls.map
        (fun c => (c.project_directory, c.output_directory, c.add_static_casts_option)) =
        [(projDir, projDir, true)] :=
  ⟨rfl, rfl⟩

end BuildAmd
